import Mathlib

/-!
Verification of the email-verification engine
(`email_verifier.py` and the per-address loop of `app.py`).

The source is embedded shallowly:
- network effects (DNS answers, per-host SMTP dialogue outcomes) are
  parameters of the embedded functions;
- Python strings are `String` / `List Char`;
- the enumerated result strings ("Exists", "Valid", ...) are inductive types.
-/

/-- Result of `check_smtp`'s dialogue classification; the source uses the
literal strings "Exists", "DoesNotExist", "Unverifiable". -/
inductive MailboxStatus
  | Exists
  | DoesNotExist
  | Unverifiable
deriving DecidableEq

/-- The per-address overall verdict of `app.py`; the source uses the literal
strings "Valid", "Invalid Syntax", "Risky / Invalid". -/
inductive OverallStatus
  | Valid
  | InvalidSyntax
  | RiskyOrInvalid
deriving DecidableEq

/-- Outcome of the SMTP dialogue with one MX host, as `check_smtp` branches
on it (`email_verifier.py` lines 100-164):
- `completed code`: the dialogue reached `server.rcpt(email)` and captured a
  numeric response `code` (then QUIT errors are ignored and the code is
  classified);
- `failed`: a transport or protocol exception was raised somewhere in the
  dialogue (connect failure at line 103, or any of the `except` arms at
  lines 140-160 / 162-164), all of which `continue` to the next host. -/
inductive HostOutcome
  | completed (code : Int)
  | failed
deriving DecidableEq

/-- The response-code classification of `check_smtp`
(`email_verifier.py` lines 130-138):

    if code in (250, 251): return "Exists"
    elif code in (550, 551, 553): return "DoesNotExist"
    elif 400 <= code < 500: return "Unverifiable"
    else: return "Unverifiable"
-/
def classifyCode (code : Int) : MailboxStatus :=
  if code = 250 ∨ code = 251 then MailboxStatus.Exists
  else if code = 550 ∨ code = 551 ∨ code = 553 then MailboxStatus.DoesNotExist
  else if 400 ≤ code ∧ code < 500 then MailboxStatus.Unverifiable
  else MailboxStatus.Unverifiable

/-- `check_smtp` (`email_verifier.py` lines 68-166), with each candidate host
paired with the outcome its dialogue would produce.  Besides the returned
status we record the trace of hosts actually contacted, in order:

    if not mx_servers: return "Unverifiable"
    for mx_host in mx_servers:
        try:  ... dialogue ...
              return <classification of rcpt code>
        except <transport/protocol>: continue
    return "Unverifiable"
-/
def check_smtp : List (String × HostOutcome) → MailboxStatus × List String
  | [] => (MailboxStatus.Unverifiable, [])
  | (mx_host, outcome) :: rest =>
    match outcome with
    | HostOutcome.completed code => (classifyCode code, [mx_host])
    | HostOutcome.failed =>
      let r := check_smtp rest
      (r.1, mx_host :: r.2)

/-- C4: `classifyCode` maps 250 and 251 to `Exists`; 550, 551 and 553 to
`DoesNotExist`; and every other code — any other 4xx or any unrecognized
code — to `Unverifiable`. -/
theorem classify_code_spec (code : Int) :
    (classifyCode code = MailboxStatus.Exists ↔ code = 250 ∨ code = 251) ∧
    (classifyCode code = MailboxStatus.DoesNotExist ↔
      code = 550 ∨ code = 551 ∨ code = 553) ∧
    (code ≠ 250 → code ≠ 251 → code ≠ 550 → code ≠ 551 → code ≠ 553 →
      classifyCode code = MailboxStatus.Unverifiable) := by
  unfold classifyCode
  refine ⟨?_, ?_, ?_⟩ <;>
    (split <;> try split <;> try split) <;> simp_all <;> omega

/-- Witness for `classify_code_spec`: evaluates the classification on the
concrete codes 250, 550, 450 and 199. -/
theorem classify_code_spec_witness :
    classifyCode 250 = MailboxStatus.Exists ∧
    classifyCode 550 = MailboxStatus.DoesNotExist ∧
    classifyCode 450 = MailboxStatus.Unverifiable ∧
    classifyCode 199 = MailboxStatus.Unverifiable := by
  refine ⟨(classify_code_spec 250).1.mpr (Or.inl rfl),
          (classify_code_spec 550).2.1.mpr (Or.inl rfl),
          (classify_code_spec 450).2.2 ?_ ?_ ?_ ?_ ?_,
          (classify_code_spec 199).2.2 ?_ ?_ ?_ ?_ ?_⟩ <;> decide

/-- C2: if every host before position `i` fails with a transport/protocol
exception and the dialogue with the host at position `i` completes through
classification, then `check_smtp` returns that host's classification and the
contacted trace is exactly the hosts up to and including it: no later host
is contacted, even when the classification is `Unverifiable`. -/
theorem smtp_decisive_completion (pre : List (String × HostOutcome))
    (h : String) (code : Int) (post : List (String × HostOutcome))
    (hpre : ∀ x ∈ pre, x.2 = HostOutcome.failed) :
    check_smtp (pre ++ (h, HostOutcome.completed code) :: post) =
      (classifyCode code, pre.map Prod.fst ++ [h]) := by
  induction pre with
  | nil => rfl
  | cons hd tl ih =>
    have hhd : hd.2 = HostOutcome.failed := hpre hd (List.mem_cons_self hd tl)
    have htl : ∀ x ∈ tl, x.2 = HostOutcome.failed :=
      fun x hx => hpre x (List.mem_cons_of_mem hd hx)
    obtain ⟨hn, ho⟩ := hd
    simp only at hhd
    subst hhd
    simp [check_smtp, ih htl]

/-- Witness for `smtp_decisive_completion`: with one failing host before a
host answering 450, the probe returns `Unverifiable` after contacting only
the first two hosts. -/
theorem smtp_decisive_completion_witness :
    check_smtp [("a.test", HostOutcome.failed),
                ("b.test", HostOutcome.completed 450),
                ("c.test", HostOutcome.completed 250)] =
      (MailboxStatus.Unverifiable, ["a.test", "b.test"]) := by
  have := smtp_decisive_completion [("a.test", HostOutcome.failed)]
    "b.test" 450 [("c.test", HostOutcome.completed 250)] (by decide)
  simpa using this

/-- C3: `check_smtp` on the empty host list returns `Unverifiable`; a host
whose dialogue raises a transport/protocol exception is skipped and the
remaining hosts are processed; consequently, when every host fails the
result is `Unverifiable` with every host contacted. -/
theorem smtp_exception_retry :
    (check_smtp [] = (MailboxStatus.Unverifiable, [])) ∧
    (∀ (h : String) (rest : List (String × HostOutcome)),
      check_smtp ((h, HostOutcome.failed) :: rest) =
        ((check_smtp rest).1, h :: (check_smtp rest).2)) ∧
    (∀ hosts : List (String × HostOutcome),
      (∀ x ∈ hosts, x.2 = HostOutcome.failed) →
      check_smtp hosts = (MailboxStatus.Unverifiable, hosts.map Prod.fst)) := by
  refine ⟨rfl, fun h rest => rfl, fun hosts hall => ?_⟩
  induction hosts with
  | nil => rfl
  | cons hd tl ih =>
    have hhd : hd.2 = HostOutcome.failed := hall hd (List.mem_cons_self hd tl)
    have htl : ∀ x ∈ tl, x.2 = HostOutcome.failed :=
      fun x hx => hall x (List.mem_cons_of_mem hd hx)
    obtain ⟨hn, ho⟩ := hd
    simp only at hhd
    subst hhd
    simp [check_smtp, ih htl]

/-- Witness for `smtp_exception_retry`: on two failing hosts the probe
returns `Unverifiable` having contacted both. -/
theorem smtp_exception_retry_witness :
    check_smtp [("a.test", HostOutcome.failed), ("b.test", HostOutcome.failed)] =
      (MailboxStatus.Unverifiable, ["a.test", "b.test"]) := by
  have := smtp_exception_retry.2.2
    [("a.test", HostOutcome.failed), ("b.test", HostOutcome.failed)] (by decide)
  simpa using this

/-- One MX answer record as `check_mx_records` reads it
(`email_verifier.py` lines 45-48): a numeric `preference` and the exchange
hostname rendered as a string (possibly with a trailing root dot). -/
structure MXRecord where
  preference : Nat
  exchange : String
deriving DecidableEq

/-- Python's `s.rstrip('.')`: remove every trailing dot. -/
def rstripDots (s : String) : String :=
  String.mk ((s.data.reverse.dropWhile (fun c => c == '.')).reverse)

/-- The filtering loop of `check_mx_records` (`email_verifier.py` lines
44-52): for each answer record, strip trailing dots from the exchange and
skip the record when the result is empty or the literal root, otherwise
keep the `(preference, exchange)` pair in answer order. -/
def filteredEntries (answers : List MXRecord) : List (Nat × String) :=
  answers.filterMap (fun rdata =>
    let exchange := rstripDots rdata.exchange
    if exchange = "" ∨ exchange = "." then none
    else some (rdata.preference, exchange))

/-- Stable insertion of an entry into a list sorted ascending by preference:
the new entry goes before the first entry whose preference is not smaller. -/
def insertEntry (x : Nat × String) : List (Nat × String) → List (Nat × String)
  | [] => [x]
  | y :: ys => if x.1 ≤ y.1 then x :: y :: ys else y :: insertEntry x ys

/-- `mx_entries.sort(key=lambda x: x[0])` (`email_verifier.py` line 58):
Python's list.sort is a stable ascending sort by the key; modeled as stable
insertion sort. -/
def sortEntries : List (Nat × String) → List (Nat × String)
  | [] => []
  | x :: xs => insertEntry x (sortEntries xs)

/-- `check_mx_records` (`email_verifier.py` lines 28-65) given the DNS
answer records.  The DNS query itself and its failure modes (lines 37-43
and 61-65, all of which yield `None`) are outside the embedding: the
function models the processing of a successfully returned answer set.

    if not mx_entries: return None
    mx_entries.sort(key=lambda x: x[0])
    return [host for _, host in mx_entries]
-/
def check_mx_records (answers : List MXRecord) : Option (List String) :=
  let mx_entries := filteredEntries answers
  if mx_entries.isEmpty then none
  else some ((sortEntries mx_entries).map Prod.snd)

theorem mem_insertEntry (z x : Nat × String) (l : List (Nat × String)) :
    z ∈ insertEntry x l ↔ z = x ∨ z ∈ l := by
  induction l with
  | nil => simp [insertEntry]
  | cons y ys ih =>
    rw [insertEntry]
    by_cases hxy : x.1 ≤ y.1
    · rw [if_pos hxy]
      simp
    · rw [if_neg hxy]
      simp only [List.mem_cons, ih]
      tauto

theorem insertEntry_pairwise (x : Nat × String) (l : List (Nat × String))
    (hl : List.Pairwise (fun a b => a.1 ≤ b.1) l) :
    List.Pairwise (fun a b => a.1 ≤ b.1) (insertEntry x l) := by
  induction l with
  | nil => simp [insertEntry]
  | cons y ys ih =>
    rw [List.pairwise_cons] at hl
    by_cases hxy : x.1 ≤ y.1
    · rw [insertEntry, if_pos hxy, List.pairwise_cons]
      refine ⟨?_, List.pairwise_cons.mpr hl⟩
      intro z hz
      rcases List.mem_cons.mp hz with hz | hz
      · exact hz ▸ hxy
      · exact le_trans hxy (hl.1 z hz)
    · rw [insertEntry, if_neg hxy, List.pairwise_cons]
      refine ⟨?_, ih hl.2⟩
      intro z hz
      rcases (mem_insertEntry z x ys).mp hz with hz | hz
      · exact hz ▸ Nat.le_of_not_le hxy
      · exact hl.1 z hz

theorem sortEntries_pairwise (l : List (Nat × String)) :
    List.Pairwise (fun a b => a.1 ≤ b.1) (sortEntries l) := by
  induction l with
  | nil => exact List.Pairwise.nil
  | cons x xs ih => exact insertEntry_pairwise x (sortEntries xs) ih

theorem filter_insertEntry (x : Nat × String) (l : List (Nat × String))
    (p : Nat) :
    (insertEntry x l).filter (fun e => e.1 == p) =
      (if x.1 == p then [x] else []) ++ l.filter (fun e => e.1 == p) := by
  induction l with
  | nil =>
    rw [insertEntry]
    by_cases hx : x.1 == p <;> simp [List.filter, hx]
  | cons y ys ih =>
    rw [insertEntry]
    by_cases hxy : x.1 ≤ y.1
    · rw [if_pos hxy]
      by_cases hx : x.1 == p <;> simp [List.filter, hx]
    · rw [if_neg hxy]
      by_cases hy : y.1 == p
      · -- y has key p, so x.1 > y.1 = p means x.1 ≠ p
        have hxp : ¬ (x.1 == p) := by
          have : y.1 = p := by simpa using hy
          have : ¬ x.1 = p := fun hc => hxy (le_of_eq (hc.trans this.symm))
          simpa using this
        simp only [List.filter_cons, hy, if_pos, ih, hxp]
        simp
      · simp only [List.filter_cons, hy]
        simp only [Bool.false_eq_true, if_neg, ih]
        simp [hy]

theorem filter_sortEntries (l : List (Nat × String)) (p : Nat) :
    (sortEntries l).filter (fun e => e.1 == p) =
      l.filter (fun e => e.1 == p) := by
  induction l with
  | nil => rfl
  | cons x xs ih =>
    rw [sortEntries, filter_insertEntry, ih, List.filter_cons]
    by_cases hx : x.1 == p <;> simp [hx]

/-- C5: when `check_mx_records` returns a host list, that list is the
preference-sorted filtered entry list with the preferences dropped; the
sorted entry list is ascending by preference, and for every preference
value the entries carrying it appear exactly as in the original answer
order (stability). -/
theorem mx_sort_stable (answers : List MXRecord) (hosts : List String)
    (h : check_mx_records answers = some hosts) :
    hosts = (sortEntries (filteredEntries answers)).map Prod.snd ∧
    List.Pairwise (fun a b => a.1 ≤ b.1) (sortEntries (filteredEntries answers)) ∧
    (∀ p : Nat, (sortEntries (filteredEntries answers)).filter (fun e => e.1 == p) =
      (filteredEntries answers).filter (fun e => e.1 == p)) := by
  refine ⟨?_, sortEntries_pairwise _, fun p => filter_sortEntries _ p⟩
  unfold check_mx_records at h
  by_cases he : (filteredEntries answers).isEmpty <;> simp [he] at h
  exact h.symm

/-- Witness for `mx_sort_stable`: two equal-preference records keep their
answer order ahead of a higher-preference one. -/
theorem mx_sort_stable_witness :
    check_mx_records [⟨20, "z.test"⟩, ⟨10, "b.test"⟩, ⟨10, "a.test"⟩] =
      some ["b.test", "a.test", "z.test"] ∧
    (sortEntries (filteredEntries
        [⟨20, "z.test"⟩, ⟨10, "b.test"⟩, ⟨10, "a.test"⟩])).map Prod.snd =
      ["b.test", "a.test", "z.test"] := by
  have h : check_mx_records [⟨20, "z.test"⟩, ⟨10, "b.test"⟩, ⟨10, "a.test"⟩] =
      some ["b.test", "a.test", "z.test"] := by decide
  exact ⟨h, ((mx_sort_stable _ _ h).1).symm⟩

/-- C6: a record whose exchange, after stripping trailing root dots, is
empty or the literal root `.` is discarded from the entry list wherever it
occurs; and when every answer record is of that shape (in particular a lone
Null MX record), `check_mx_records` returns `None`. -/
theorem null_mx_discard :
    (∀ (rdata : MXRecord) (rest : List MXRecord),
      rstripDots rdata.exchange = "" ∨ rstripDots rdata.exchange = "." →
      filteredEntries (rdata :: rest) = filteredEntries rest) ∧
    (∀ answers : List MXRecord,
      (∀ r ∈ answers, rstripDots r.exchange = "" ∨ rstripDots r.exchange = ".") →
      check_mx_records answers = none) := by
  have hdrop : ∀ (rdata : MXRecord) (rest : List MXRecord),
      rstripDots rdata.exchange = "" ∨ rstripDots rdata.exchange = "." →
      filteredEntries (rdata :: rest) = filteredEntries rest := by
    intro rdata rest hbad
    unfold filteredEntries
    rw [List.filterMap_cons]
    simp only [if_pos hbad]
  refine ⟨hdrop, fun answers hall => ?_⟩
  have hempty : filteredEntries answers = [] := by
    induction answers with
    | nil => rfl
    | cons r rs ih =>
      rw [hdrop r rs (hall r (List.mem_cons_self r rs))]
      exact ih (fun x hx => hall x (List.mem_cons_of_mem r hx))
  unfold check_mx_records
  simp [hempty]

/-- Witness for `null_mx_discard`: a lone RFC 7505 Null MX answer yields
`None`. -/
theorem null_mx_discard_witness :
    check_mx_records [⟨0, "."⟩] = none := by
  exact null_mx_discard.2 [⟨0, "."⟩] (by decide)

/-- Split a character list on a separator character; like Python's
`str.split(sep)`, adjacent separators produce empty groups and the result
always has one more group than there are separators. -/
def splitOnChar (sep : Char) : List Char → List (List Char)
  | [] => [[]]
  | c :: rest =>
    if c = sep then [] :: splitOnChar sep rest
    else
      match splitOnChar sep rest with
      | [] => [[c]]
      | g :: gs => (c :: g) :: gs

/-- Join groups of characters with a separator character (inverse of
`splitOnChar`). -/
def joinWith (sep : Char) : List (List Char) → List Char
  | [] => []
  | [p] => p
  | p :: q :: ps => p ++ sep :: joinWith sep (q :: ps)

theorem splitOnChar_ne_nil (sep : Char) (l : List Char) :
    splitOnChar sep l ≠ [] := by
  cases l with
  | nil => simp [splitOnChar]
  | cons c rest =>
    rw [splitOnChar]
    by_cases hc : c = sep
    · simp [hc]
    · rw [if_neg hc]
      cases splitOnChar sep rest <;> simp

theorem joinWith_splitOnChar (sep : Char) (l : List Char) :
    joinWith sep (splitOnChar sep l) = l := by
  induction l with
  | nil => rfl
  | cons c rest ih =>
    rw [splitOnChar]
    by_cases hc : c = sep
    · rw [if_pos hc]
      obtain ⟨g, gs, hg⟩ := List.exists_cons_of_ne_nil (splitOnChar_ne_nil sep rest)
      rw [hg] at ih ⊢
      rw [joinWith, ← ih, hc]
      rfl
    · rw [if_neg hc]
      obtain ⟨g, gs, hg⟩ := List.exists_cons_of_ne_nil (splitOnChar_ne_nil sep rest)
      rw [hg] at ih ⊢
      cases gs with
      | nil => rw [joinWith] at ih ⊢; rw [ih]
      | cons q qs =>
        rw [joinWith] at ih ⊢
        rw [List.cons_append, ih]

theorem not_mem_of_mem_splitOnChar (sep : Char) (l : List Char)
    (part : List Char) (hpart : part ∈ splitOnChar sep l) : sep ∉ part := by
  induction l generalizing part with
  | nil =>
    simp [splitOnChar] at hpart
    simp [hpart]
  | cons c rest ih =>
    rw [splitOnChar] at hpart
    by_cases hc : c = sep
    · rw [if_pos hc] at hpart
      rcases List.mem_cons.mp hpart with h | h
      · simp [h]
      · exact ih part h
    · rw [if_neg hc] at hpart
      obtain ⟨g, gs, hg⟩ := List.exists_cons_of_ne_nil (splitOnChar_ne_nil sep rest)
      rw [hg] at hpart
      rcases List.mem_cons.mp hpart with h | h
      · subst h
        intro hmem
        rcases List.mem_cons.mp hmem with h | h
        · exact hc h.symm
        · exact ih g (hg ▸ List.mem_cons_self g gs) h
      · exact ih part (hg ▸ List.mem_cons_of_mem g h)

theorem splitOnChar_of_not_mem (sep : Char) (p : List Char) (hp : sep ∉ p) :
    splitOnChar sep p = [p] := by
  induction p with
  | nil => rfl
  | cons c cs ih =>
    have hc : ¬ c = sep := fun h => hp (h ▸ List.mem_cons_self c cs)
    have hcs : sep ∉ cs := fun h => hp (List.mem_cons_of_mem c h)
    rw [splitOnChar, if_neg hc, ih hcs]

theorem splitOnChar_append_sep (sep : Char) (p t : List Char) (hp : sep ∉ p) :
    splitOnChar sep (p ++ sep :: t) = p :: splitOnChar sep t := by
  induction p with
  | nil => simp [splitOnChar]
  | cons c cs ih =>
    have hc : ¬ c = sep := fun h => hp (h ▸ List.mem_cons_self c cs)
    have hcs : sep ∉ cs := fun h => hp (List.mem_cons_of_mem c h)
    rw [List.cons_append, splitOnChar, if_neg hc, ih hcs]

theorem splitOnChar_joinWith (sep : Char) (parts : List (List Char))
    (hne : parts ≠ []) (hfree : ∀ p ∈ parts, sep ∉ p) :
    splitOnChar sep (joinWith sep parts) = parts := by
  induction parts with
  | nil => exact absurd rfl hne
  | cons p ps ih =>
    cases ps with
    | nil =>
      rw [joinWith]
      exact splitOnChar_of_not_mem sep p (hfree p (List.mem_cons_self p []))
    | cons q qs =>
      rw [joinWith, splitOnChar_append_sep sep p _
            (hfree p (List.mem_cons_self p (q :: qs)))]
      rw [ih (by simp) (fun x hx => hfree x (List.mem_cons_of_mem p hx))]

theorem mem_joinWith (sep : Char) (parts : List (List Char)) (c : Char)
    (hc : c ∈ joinWith sep parts) : c = sep ∨ ∃ p ∈ parts, c ∈ p := by
  induction parts with
  | nil => simp [joinWith] at hc
  | cons p ps ih =>
    cases ps with
    | nil =>
      rw [joinWith] at hc
      exact Or.inr ⟨p, List.mem_cons_self p [], hc⟩
    | cons q qs =>
      rw [joinWith] at hc
      rcases List.mem_append.mp hc with h | h
      · exact Or.inr ⟨p, List.mem_cons_self p (q :: qs), h⟩
      · rcases List.mem_cons.mp h with h | h
        · exact Or.inl h
        · rcases ih h with h | ⟨x, hx, hcx⟩
          · exact Or.inl h
          · exact Or.inr ⟨x, List.mem_cons_of_mem p hx, hcx⟩

theorem takeWhile_append_stop (p : Char → Bool) (l t : List Char) (c : Char)
    (hl : ∀ x ∈ l, p x = true) (hc : p c = false) :
    (l ++ c :: t).takeWhile p = l := by
  induction l with
  | nil => simp [List.takeWhile, hc]
  | cons x xs ih =>
    rw [List.cons_append, List.takeWhile_cons,
        hl x (List.mem_cons_self x xs)]
    rw [ih (fun y hy => hl y (List.mem_cons_of_mem x hy))]
    simp

/-- `[A-Za-z0-9]` of the regex in `check_syntax`
(`email_verifier.py` line 16); `Char.isAlpha` / `Char.isDigit` are the
ASCII ranges. -/
def isAlnumChar (c : Char) : Bool := c.isAlpha || c.isDigit

/-- The local-part character class of the regex
(`email_verifier.py` line 16):
letters, digits, and the characters `. ! # $ % & [39] * + / = ? ^ _ [96]
{ | } ~ -` (codes 39 and 96 are the single quote and the backtick). -/
def isLocalChar (c : Char) : Bool :=
  isAlnumChar c || c == '.' || c == '!' || c == '#' || c == '$' || c == '%' ||
  c == '&' || c == Char.ofNat 39 || c == '*' || c == '+' || c == '/' ||
  c == '=' || c == '?' || c == '^' || c == '_' || c == Char.ofNat 96 ||
  c == '{' || c == '|' || c == '}' || c == '~' || c == '-'

/-- `[A-Za-z0-9-]` of the regex (`email_verifier.py` line 16). -/
def isLabelChar (c : Char) : Bool := isAlnumChar c || c == '-'

/-- The language of one domain label,
`[A-Za-z0-9](?:[A-Za-z0-9-]{0,61}[A-Za-z0-9])?` of the regex
(`email_verifier.py` line 16): a nonempty string of at most 63 characters
from `[A-Za-z0-9-]` whose first and last characters are alphanumeric. -/
def isLabel (l : List Char) : Bool :=
  !l.isEmpty && decide (l.length ≤ 63) && l.all isLabelChar &&
  l.head?.any isAlnumChar && l.getLast?.any isAlnumChar

/-- The domain language of the regex,
`<label>(?:\.<label>)+` (`email_verifier.py` line 16): splitting on dots
must give at least two groups, each in the label language (the dot is not
in the label character class, so the split is exact). -/
def domainOk (d : List Char) : Bool :=
  let labels := splitOnChar '.' d
  decide (2 ≤ labels.length) && labels.all isLabel

/-- The full anchored regex body of `check_syntax`
(`email_verifier.py` line 16), applied to the groups obtained by splitting
on `@`: the `@` occurs in neither the local-part class nor the domain
classes, so a match requires exactly one `@`, a nonempty local part of
local characters before it and a domain after it. -/
def checkParts : List (List Char) → Bool
  | [localPart, domainPart] =>
    !localPart.isEmpty && localPart.all isLocalChar && domainOk domainPart
  | _ => false

/-- The regex language on a raw character list, before `$`-handling. -/
def checkCore (s : List Char) : Bool :=
  checkParts (splitOnChar '@' s)

/-- Python's `$` anchor (without `re.MULTILINE`) matches at the end of the
string and also just before a newline that ends the string; since `\n` is
in none of the regex character classes, `re.match(r"^...$", s)` succeeds
exactly when the regex body matches `s` with one final newline removed. -/
def stripFinalNewline (s : List Char) : List Char :=
  match s.getLast? with
  | some c => if c = '\n' then s.dropLast else s
  | none => s

/-- `check_syntax` (`email_verifier.py` lines 8-17):

    regex = r"^[a-zA-Z0-9.!#$%&...~-]+@[A-Za-z0-9](?:[A-Za-z0-9-]{0,61}
             [A-Za-z0-9])?(?:\.[A-Za-z0-9](?:[A-Za-z0-9-]{0,61}[A-Za-z0-9])?)+$"
    return re.match(regex, email) is not None
-/
def check_syntax (email : String) : Bool :=
  checkCore (stripFinalNewline email.data)

/-- The spec's per-label condition, stated in the spec's words: each
dot-separated domain label starts and ends with an alphanumeric character,
its interior characters may include hyphens, and its length is at most 63. -/
def SpecLabel (l : List Char) : Prop :=
  l ≠ [] ∧ l.length ≤ 63 ∧ (∀ c ∈ l, isLabelChar c = true) ∧
  l.head?.any isAlnumChar = true ∧ l.getLast?.any isAlnumChar = true

/-- The address shape stated by the spec (§4.1), on a character list: one
or more local-part characters from the fixed safe set, followed by `@`,
followed by at least two dot-separated domain labels (at least one label
separator), each label as in `SpecLabel`. -/
def SpecEmailShapeL (s : List Char) : Prop :=
  ∃ (localPart : List Char) (labels : List (List Char)),
    s = localPart ++ '@' :: joinWith '.' labels ∧
    localPart ≠ [] ∧ (∀ c ∈ localPart, isLocalChar c = true) ∧
    2 ≤ labels.length ∧ ∀ l ∈ labels, SpecLabel l

/-- The spec's address shape on a string. -/
def SpecEmailShape (s : String) : Prop := SpecEmailShapeL s.data

theorem isLabel_iff (l : List Char) : isLabel l = true ↔ SpecLabel l := by
  unfold isLabel SpecLabel
  simp only [List.all_eq_true, List.isEmpty_iff, Bool.and_eq_true,
    Bool.not_eq_true', List.isEmpty_eq_false, decide_eq_true_eq, ne_eq]
  tauto

theorem checkCore_iff (s : List Char) : checkCore s = true ↔ SpecEmailShapeL s := by
  constructor
  · intro h
    unfold checkCore at h
    have hjoin := joinWith_splitOnChar '@' s
    rcases hsplit : splitOnChar '@' s with _ | ⟨a, _ | ⟨b, rest⟩⟩
    · rw [hsplit] at h; exact absurd h (by simp [checkParts])
    · rw [hsplit] at h; exact absurd h (by simp [checkParts])
    · cases rest with
      | cons x xs => rw [hsplit] at h; exact absurd h (by simp [checkParts])
      | nil =>
        rw [hsplit] at h hjoin
        rw [joinWith] at hjoin
        simp only [checkParts, domainOk, Bool.and_eq_true, decide_eq_true_eq,
          List.all_eq_true] at h
        obtain ⟨⟨hne, hlocal⟩, hlen, hlab⟩ := h
        refine ⟨a, splitOnChar '.' b, ?_, ?_, hlocal, hlen, ?_⟩
        · rw [joinWith_splitOnChar '.' b, ← hjoin, joinWith]
        · simpa [List.isEmpty_iff] using hne
        · intro l hl
          exact (isLabel_iff l).mp (hlab l hl)
  · rintro ⟨localPart, labels, heq, hne, hlocal, hlen, hlab⟩
    have hat_local : '@' ∉ localPart := by
      intro hmem
      have := hlocal _ hmem
      exact absurd this (by decide)
    have hdot_free : ∀ l ∈ labels, ('.' : Char) ∉ l := by
      intro l hl hmem
      have := (hlab l hl).2.2.1 _ hmem
      exact absurd this (by decide)
    have hat_join : '@' ∉ joinWith '.' labels := by
      intro hmem
      rcases mem_joinWith '.' labels '@' hmem with h | ⟨l, hl, hcl⟩
      · exact absurd h (by decide)
      · have := (hlab l hl).2.2.1 _ hcl
        exact absurd this (by decide)
    have hlabels_ne : labels ≠ [] := by
      intro hnil
      rw [hnil] at hlen
      simp at hlen
    have hsplit : splitOnChar '@' s = [localPart, joinWith '.' labels] := by
      rw [heq, splitOnChar_append_sep '@' localPart _ hat_local,
        splitOnChar_of_not_mem '@' _ hat_join]
    have hsplit_dom : splitOnChar '.' (joinWith '.' labels) = labels :=
      splitOnChar_joinWith '.' labels hlabels_ne hdot_free
    unfold checkCore
    rw [hsplit]
    simp only [checkParts, domainOk, hsplit_dom, Bool.and_eq_true,
      decide_eq_true_eq, List.all_eq_true]
    refine ⟨⟨?_, hlocal⟩, hlen, ?_⟩
    · simpa [List.isEmpty_iff] using hne
    · intro l hl
      exact (isLabel_iff l).mpr (hlab l hl)

theorem shape_decomp (s : List Char) (h : SpecEmailShapeL s) :
    ∃ a b, s = a ++ '@' :: b ∧ '@' ∉ a ∧ '@' ∉ b := by
  obtain ⟨localPart, labels, heq, hne, hlocal, hlen, hlab⟩ := h
  refine ⟨localPart, joinWith '.' labels, heq, ?_, ?_⟩
  · intro hmem
    have := hlocal _ hmem
    exact absurd this (by decide)
  · intro hmem
    rcases mem_joinWith '.' labels '@' hmem with h | ⟨l, hl, hcl⟩
    · exact absurd h (by decide)
    · have := (hlab l hl).2.2.1 _ hcl
      exact absurd this (by decide)

theorem newline_not_in_shape (s : List Char) (h : SpecEmailShapeL s) :
    (Char.ofNat 10) ∉ s := by
  obtain ⟨localPart, labels, heq, hne, hlocal, hlen, hlab⟩ := h
  intro hmem
  rw [heq] at hmem
  rcases List.mem_append.mp hmem with h | h
  · exact absurd (hlocal _ h) (by decide)
  · rcases List.mem_cons.mp h with h | h
    · exact absurd h (by decide)
    · rcases mem_joinWith '.' labels _ h with h | ⟨l, hl, hcl⟩
      · exact absurd h (by decide)
      · exact absurd ((hlab l hl).2.2.1 _ hcl) (by decide)

theorem stripFinalNewline_concat_newline (l : List Char) :
    stripFinalNewline (l ++ [Char.ofNat 10]) = l := by
  unfold stripFinalNewline
  rw [List.getLast?_concat]
  simp [List.dropLast_concat, show Char.ofNat 10 = '\n' by decide]

theorem stripFinalNewline_concat_other (l : List Char) (c : Char)
    (hc : c ≠ '\n') : stripFinalNewline (l ++ [c]) = l ++ [c] := by
  unfold stripFinalNewline
  rw [List.getLast?_concat]
  simp [hc]

theorem stripFinalNewline_decomp (s : List Char) :
    s = stripFinalNewline s ∨ s = stripFinalNewline s ++ [Char.ofNat 10] := by
  induction s using List.reverseRecOn with
  | nil => exact Or.inl rfl
  | append_singleton l c ih =>
    by_cases hc : c = '\n'
    · subst hc
      rw [show ('\n' : Char) = Char.ofNat 10 by decide,
          stripFinalNewline_concat_newline]
      exact Or.inr rfl
    · rw [stripFinalNewline_concat_other l c hc]
      exact Or.inl rfl

/-- C7 counterexample: Python's `re.match` with a `$` anchor also matches
when a single newline ends the string, so `check_syntax` accepts
`"user@example.com\n"`, a string that is not of the address shape stated
by the spec. -/
theorem syntax_shape_counterexample :
    check_syntax "user@example.com\n" = true ∧
    ¬ SpecEmailShape "user@example.com\n" := by
  refine ⟨by decide, fun hshape => ?_⟩
  exact absurd (show (Char.ofNat 10) ∈ ("user@example.com\n" : String).data by decide)
    (newline_not_in_shape _ hshape)

/-- C7 (amended): `check_syntax` returns true exactly when the input,
after removal of a single final newline if one is present (Python `$`
semantics), consists of one or more local-part characters from the fixed
safe set, `@`, and at least two dot-separated domain labels, each label
starting and ending alphanumeric, with interior hyphens allowed and length
at most 63; on every other input it returns false. -/
theorem syntax_shape_amended (s : String) :
    check_syntax s = true ↔ SpecEmailShapeL (stripFinalNewline s.data) :=
  checkCore_iff (stripFinalNewline s.data)

/-- Witness for `syntax_shape_amended` at the accepted input
`"user@example.com\n"`. -/
theorem syntax_shape_amended_witness :
    SpecEmailShapeL (stripFinalNewline ("user@example.com\n" : String).data) :=
  (syntax_shape_amended "user@example.com\n").mp (by decide)

/-- C10 counterexample: appending one newline to an accepted string is not
always accepted: `"user@example.com\n"` is accepted, but appending a
further newline to it is rejected (the `$` anchor tolerates at most one
final newline). -/
theorem newline_append_counterexample :
    check_syntax "user@example.com\n" = true ∧
    check_syntax "user@example.com\n\n" = false := by
  constructor <;> decide

/-- C10 (amended): `check_syntax` accepts `"user@example.com\n"`, an input
outside the spec's address shape; and for every accepted string that does
not already end in a newline, the string with a single newline appended is
also accepted. -/
theorem newline_append_amended :
    check_syntax "user@example.com\n" = true ∧
    ¬ SpecEmailShape "user@example.com\n" ∧
    ∀ s : String, check_syntax s = true → s.data.getLast? ≠ some '\n' →
      check_syntax (s ++ "\n") = true := by
  refine ⟨by decide, fun hshape => ?_, fun s h hlast => ?_⟩
  · exact absurd (show (Char.ofNat 10) ∈ ("user@example.com\n" : String).data by decide)
      (newline_not_in_shape _ hshape)
  · have hstrip : stripFinalNewline s.data = s.data := by
      unfold stripFinalNewline
      cases hl : s.data.getLast? with
      | none => rfl
      | some c =>
        have hc : ¬ c = '\n' := fun hh => hlast (hh ▸ hl)
        simp [hc]
    have hdata : (s ++ "\n").data = s.data ++ ['\n'] := by
      simp
    have hstrip2 : stripFinalNewline (s.data ++ ['\n']) = s.data := by
      rw [show ('\n' : Char) = Char.ofNat 10 by decide,
          stripFinalNewline_concat_newline]
    show checkCore (stripFinalNewline (s ++ "\n").data) = true
    rw [hdata, hstrip2]
    have h' : checkCore (stripFinalNewline s.data) = true := h
    rw [hstrip] at h'
    exact h'

/-- Witness for `newline_append_amended`: applies its universal part to the
accepted newline-free input `"user@example.com"`. -/
theorem newline_append_amended_witness :
    check_syntax ("user@example.com" ++ "\n") = true :=
  newline_append_amended.2.2 "user@example.com" (by decide) (by decide)

/-- `email.split('@')[1]` (`app.py` line 53): the group after the first
`@` of the Python split (the source only evaluates it when the address
passed the syntax check, which guarantees the group exists). -/
def pythonDomain (email : String) : List Char :=
  ((splitOnChar '@' email.data)[1]?).getD []

/-- The substring after the last `@` of a string: the spec's decomposition
rule for `EmailAddress` (§3). -/
def afterLastAt (s : List Char) : List Char :=
  (s.reverse.takeWhile (fun c => c != '@')).reverse

/-- C9: every address accepted by `check_syntax` contains exactly one `@`;
hence splitting on the first `@` as `app.py` does (`email.split('@')[1]`)
produces exactly two groups and its domain group coincides with the
substring after the last `@`, the spec's decomposition rule. -/
theorem domain_split_agrees (e : String) (h : check_syntax e = true) :
    (splitOnChar '@' e.data).length = 2 ∧
    e.data.count '@' = 1 ∧
    pythonDomain e = afterLastAt e.data := by
  have h' : SpecEmailShapeL (stripFinalNewline e.data) :=
    (syntax_shape_amended e).mp h
  obtain ⟨a, b, heq, ha, hb⟩ := shape_decomp _ h'
  have hcase : ∃ t : List Char, e.data = a ++ '@' :: (b ++ t) ∧ '@' ∉ t := by
    rcases stripFinalNewline_decomp e.data with htail | htail
    · refine ⟨[], ?_, by simp⟩
      rw [htail, heq]
      simp
    · refine ⟨[Char.ofNat 10], ?_, by decide⟩
      rw [htail, heq]
      simp
  obtain ⟨t, heqfull, ht⟩ := hcase
  have hbt : '@' ∉ b ++ t := by
    intro hmem
    rcases List.mem_append.mp hmem with hx | hx
    · exact hb hx
    · exact ht hx
  have hsplit_full : splitOnChar '@' e.data = [a, b ++ t] := by
    rw [heqfull, splitOnChar_append_sep '@' a _ ha,
        splitOnChar_of_not_mem '@' (b ++ t) hbt]
  have hcount : e.data.count '@' = 1 := by
    rw [heqfull, List.count_append, List.count_cons_self,
        List.count_eq_zero.mpr ha, List.count_eq_zero.mpr hbt]
  have hall2 : ∀ x ∈ (b ++ t).reverse, (x != '@') = true := by
    intro x hx
    have hx' : x ∈ b ++ t := List.mem_reverse.mp hx
    have hxne : x ≠ '@' := fun hh => hbt (hh ▸ hx')
    simpa using hxne
  have hafter : afterLastAt e.data = b ++ t := by
    unfold afterLastAt
    rw [heqfull]
    have hrev : (a ++ '@' :: (b ++ t)).reverse =
        (b ++ t).reverse ++ '@' :: a.reverse := by
      simp
    rw [hrev, takeWhile_append_stop (fun c => c != '@') ((b ++ t).reverse)
        a.reverse '@' hall2 (by decide), List.reverse_reverse]
  have hdom : pythonDomain e = b ++ t := by
    unfold pythonDomain
    rw [hsplit_full]
    simp
  exact ⟨by rw [hsplit_full]; rfl, hcount, by rw [hdom, hafter]⟩

/-- Witness for `domain_split_agrees` at the accepted address
`"a@b.cd"`. -/
theorem domain_split_agrees_witness :
    (splitOnChar '@' ("a@b.cd" : String).data).length = 2 ∧
    ("a@b.cd" : String).data.count '@' = 1 ∧
    pythonDomain "a@b.cd" = afterLastAt ("a@b.cd" : String).data :=
  domain_split_agrees "a@b.cd" (by decide)

/-- One row of the result report built by `verify_emails`
(`app.py` lines 66-72); the string serializations ("Valid"/"Invalid",
"True"/"False", status strings) are modeled by the typed fields. -/
structure VerificationResult where
  email : String
  syntaxValid : Bool
  domainHasMX : Bool
  mailboxExists : MailboxStatus
  overallStatus : OverallStatus
deriving DecidableEq

/-- An invocation of one of the two networked engine operations by the
orchestrator, recorded in call order. -/
inductive EngineCall
  | mxLookup (domain : String)
  | smtpProbe (email : String) (hosts : List String)
deriving DecidableEq

/-- The per-address body of the `verify_emails` loop
(`app.py` lines 47-72), for one already-stripped address.  The MX resolver
and the SMTP probe are parameters (their Python counterparts do network
I/O); the returned trace lists the engine calls made, in order.  Python
truthiness of `if mx_records:` makes both `None` and an empty list fall
into the no-MX branch:

    syntax_valid = check_syntax(email)
    domain_has_mx = False
    mailbox_exists = "Unverifiable"
    if syntax_valid:
        domain = email.split('@')[1]
        mx_records = check_mx_records(domain)
        if mx_records:
            domain_has_mx = True
            mailbox_exists = check_smtp(email, mx_records)
        if domain_has_mx and mailbox_exists == "Exists":
            overall_status = "Valid"
        else:
            overall_status = "Risky / Invalid"
    else:
        overall_status = "Invalid Syntax"
-/
def verify_address (resolveMX : String → Option (List String))
    (probe : String → List String → MailboxStatus) (email : String) :
    VerificationResult × List EngineCall :=
  let syntax_valid := check_syntax email
  let step :=
    if syntax_valid then
      let domain := String.mk (pythonDomain email)
      match resolveMX domain with
      | some hosts =>
        if hosts.isEmpty then
          ((false, MailboxStatus.Unverifiable), [EngineCall.mxLookup domain])
        else
          ((true, probe email hosts),
            [EngineCall.mxLookup domain, EngineCall.smtpProbe email hosts])
      | none => ((false, MailboxStatus.Unverifiable), [EngineCall.mxLookup domain])
    else ((false, MailboxStatus.Unverifiable), [])
  let domain_has_mx := step.1.1
  let mailbox_exists := step.1.2
  let overall_status :=
    if syntax_valid then
      if domain_has_mx = true ∧ mailbox_exists = MailboxStatus.Exists then
        OverallStatus.Valid
      else OverallStatus.RiskyOrInvalid
    else OverallStatus.InvalidSyntax
  ({ email := email, syntaxValid := syntax_valid, domainHasMX := domain_has_mx,
     mailboxExists := mailbox_exists, overallStatus := overall_status }, step.2)

/-- The verification loop of `verify_emails` (`app.py` lines 46-72) over
the stripped `Email` column values, one result row per address.  The
surrounding CSV/upload plumbing is outside the engine per the spec. -/
def verify_emails (resolveMX : String → Option (List String))
    (probe : String → List String → MailboxStatus) (emails : List String) :
    List (VerificationResult × List EngineCall) :=
  emails.map (verify_address resolveMX probe)

/-- C1: for every address processed by the orchestrator, the overall
status is `InvalidSyntax` exactly when the syntax check returned false;
otherwise it is `Valid` exactly when the domain had MX records and the
mailbox status is `Exists`, and `RiskyOrInvalid` in every other case. -/
theorem overall_status_invariant (resolveMX : String → Option (List String))
    (probe : String → List String → MailboxStatus) (emails : List String)
    (out : VerificationResult × List EngineCall)
    (hout : out ∈ verify_emails resolveMX probe emails) :
    (out.1.overallStatus = OverallStatus.InvalidSyntax ↔
      out.1.syntaxValid = false) ∧
    (out.1.syntaxValid = true →
      ((out.1.overallStatus = OverallStatus.Valid ↔
         out.1.domainHasMX = true ∧ out.1.mailboxExists = MailboxStatus.Exists) ∧
       (out.1.overallStatus = OverallStatus.RiskyOrInvalid ↔
         ¬(out.1.domainHasMX = true ∧
           out.1.mailboxExists = MailboxStatus.Exists)))) := by
  obtain ⟨e, he, rfl⟩ := List.mem_map.mp hout
  by_cases hsv : check_syntax e = true
  · simp only [verify_address, hsv, if_true]
    split
    · simp_all
    · simp_all
  · have hsv' : check_syntax e = false := by
      simpa using hsv
    simp [verify_address, hsv']

/-- Witness for `overall_status_invariant`: a resolver with one host and a
probe answering `Exists` make `"a@b.cd"` come out `Valid`. -/
theorem overall_status_invariant_witness :
    (verify_address (fun _ => some ["h.test"]) (fun _ _ => MailboxStatus.Exists)
      "a@b.cd").1.overallStatus = OverallStatus.Valid := by
  have h := overall_status_invariant (fun _ => some ["h.test"])
    (fun _ _ => MailboxStatus.Exists) ["a@b.cd"]
    (verify_address (fun _ => some ["h.test"]) (fun _ _ => MailboxStatus.Exists)
      "a@b.cd") (by simp [verify_emails])
  exact ((h.2 (by decide)).1).mpr ⟨by decide, by decide⟩

/-- C8: for an address failing the syntax check, `verify_address` returns
`overallStatus = InvalidSyntax`, `hasMX = false`,
`mailboxStatus = Unverifiable`, makes no engine call at all, and its result
is therefore identical under any resolver and probe. -/
theorem invalid_syntax_short_circuit
    (resolveMX resolveMX2 : String → Option (List String))
    (probe probe2 : String → List String → MailboxStatus) (email : String)
    (h : check_syntax email = false) :
    verify_address resolveMX probe email =
      ({ email := email, syntaxValid := false, domainHasMX := false,
         mailboxExists := MailboxStatus.Unverifiable,
         overallStatus := OverallStatus.InvalidSyntax }, []) ∧
    verify_address resolveMX probe email =
      verify_address resolveMX2 probe2 email := by
  constructor <;> simp [verify_address, h]

/-- Witness for `invalid_syntax_short_circuit` at the malformed address
`"user@ex ample.com"`. -/
theorem invalid_syntax_short_circuit_witness :
    verify_address (fun _ => some ["h.test"]) (fun _ _ => MailboxStatus.Exists)
      "user@ex ample.com" =
      ({ email := "user@ex ample.com", syntaxValid := false,
         domainHasMX := false, mailboxExists := MailboxStatus.Unverifiable,
         overallStatus := OverallStatus.InvalidSyntax }, []) :=
  (invalid_syntax_short_circuit (fun _ => some ["h.test"]) (fun _ => none)
    (fun _ _ => MailboxStatus.Exists) (fun _ _ => MailboxStatus.Unverifiable)
    "user@ex ample.com" (by decide)).1
